import Mathlib

/-!
# Lockfile Guardian — verification of the hash-tracking and hook-merging core

This file gives a shallow embedding, in Lean 4, of the core logic of the
`lockfile-guardian` tool (TypeScript): the hook-script text merger
(`createHookContent` / `removeHookContent`), the lockfile detector
(`findLockfile`), the repository locator (`findGitRoot`), the hook directory
resolver (`getActiveHooksDir`), the fingerprint-store path derivation
(`getGuardianDataPath`), the change detector (`checkLockfile`), and the hook
installer/uninstaller (`installGitHooks` / `uninstallGitHooks`).

JavaScript strings are modelled as Lean `String`; the JavaScript string
operations the source relies on (`split("\n")`, `Array.join("\n")`,
`String.prototype.trim`, `String.prototype.includes`,
`String.prototype.startsWith`, first-occurrence `String.prototype.replace`,
per-character regex replacement) are implemented here over `List Char` so that
every definition is executable and provable.  File-system and subprocess
effects are threaded explicitly (directory contents as membership functions,
hook files as `String → Option String`, the config read as `Option String`,
the install subprocess result as a `Bool`).
-/

namespace LockfileGuardian

/-! ## JavaScript string primitives -/

/-- The JavaScript whitespace characters relevant to `String.prototype.trim`
(space, tab, newline, carriage return, vertical tab, form feed, no-break
space, BOM). -/
def wsB (c : Char) : Bool :=
  c = ' ' || c = '\t' || c = '\n' || c = '\r' || c = '\x0b' || c = '\x0c' ||
  c = ' ' || c = '﻿'

/-- `trim` on character lists: drop whitespace from the front, then from the
back (mirrors `String.prototype.trim`). -/
def trimL (xs : List Char) : List Char :=
  (xs.dropWhile wsB).rdropWhile wsB

/-- JavaScript `String.prototype.trim`. -/
def jsTrim (s : String) : String :=
  String.mk (trimL s.data)

/-- Decide whether `pat` is a prefix of `t` (character lists). -/
def isPreL : List Char → List Char → Bool
  | [], _ => true
  | _ :: _, [] => false
  | a :: as, b :: bs => a == b && isPreL as bs

/-- Decide whether `pat` occurs as a contiguous substring of `t`
(character lists); the search model behind `String.prototype.includes`. -/
def isSubL (pat : List Char) : List Char → Bool
  | [] => pat.isEmpty
  | b :: bs => isPreL pat (b :: bs) || isSubL pat bs

/-- JavaScript `String.prototype.includes`. -/
def jsIncludes (s sub : String) : Bool :=
  isSubL sub.data s.data

/-- JavaScript `String.prototype.startsWith`. -/
def jsStartsWith (s pat : String) : Bool :=
  isPreL pat.data s.data

/-- `split("\n")` on character lists: every `'\n'` is a separator; the result
is always non-empty. -/
def splitNlL : List Char → List (List Char)
  | [] => [[]]
  | c :: cs =>
    if c = '\n' then [] :: splitNlL cs
    else
      match splitNlL cs with
      | [] => [[c]]
      | h :: t => (c :: h) :: t

/-- JavaScript `content.split("\n")`. -/
def splitNl (s : String) : List String :=
  (splitNlL s.data).map String.mk

/-- `Array.prototype.join("\n")` on character lists. -/
def joinLinesL : List (List Char) → List Char
  | [] => []
  | [x] => x
  | x :: y :: rest => x ++ '\n' :: joinLinesL (y :: rest)

/-- JavaScript `lines.join("\n")`. -/
def joinLines (ls : List String) : String :=
  String.mk (joinLinesL (ls.map String.data))

/-! ## Lemmas about the string primitives -/

theorem isPreL_iff (pat t : List Char) : isPreL pat t = true ↔ ∃ r, t = pat ++ r := by
  induction pat generalizing t with
  | nil => simp [isPreL]
  | cons a as ih =>
    cases t with
    | nil => simp [isPreL]
    | cons b bs =>
      simp only [isPreL, Bool.and_eq_true, beq_iff_eq, ih, List.cons_append, List.cons.injEq]
      constructor
      · rintro ⟨rfl, r, rfl⟩; exact ⟨r, rfl, rfl⟩
      · rintro ⟨r, rfl, rfl⟩; exact ⟨rfl, r, rfl⟩

theorem isSubL_iff (pat t : List Char) : isSubL pat t = true ↔ ∃ l r, t = l ++ pat ++ r := by
  induction t with
  | nil =>
    simp only [isSubL, List.isEmpty_iff]
    constructor
    · rintro rfl; exact ⟨[], [], rfl⟩
    · rintro ⟨l, r, h⟩
      rcases List.append_eq_nil.mp (List.append_eq_nil.mp h.symm).1 with ⟨-, h2⟩
      exact h2
  | cons b bs ih =>
    simp only [isSubL, Bool.or_eq_true, isPreL_iff, ih]
    constructor
    · rintro (⟨r, h⟩ | ⟨l, r, rfl⟩)
      · exact ⟨[], r, by simpa using h⟩
      · exact ⟨b :: l, r, rfl⟩
    · rintro ⟨l, r, h⟩
      cases l with
      | nil => exact Or.inl ⟨r, by simpa using h⟩
      | cons x xs =>
        simp only [List.cons_append, List.cons.injEq] at h
        exact Or.inr ⟨xs, r, h.2⟩

theorem isSubL_self (pat : List Char) : isSubL pat pat = true := by
  rw [isSubL_iff]; exact ⟨[], [], by simp⟩

theorem mem_of_isSubL {pat t : List Char} (h : isSubL pat t = true) {c : Char}
    (hc : c ∈ pat) : c ∈ t := by
  rcases (isSubL_iff pat t).mp h with ⟨l, r, rfl⟩
  simp [hc]

theorem splitNlL_ne_nil (xs : List Char) : splitNlL xs ≠ [] := by
  induction xs with
  | nil => simp [splitNlL]
  | cons c cs ih =>
    by_cases h : c = '\n'
    · simp [splitNlL, h]
    · simp only [splitNlL, if_neg h]
      rcases hs : splitNlL cs with - | ⟨hd, tl⟩
      · exact (ih hs).elim
      · simp

theorem splitNlL_append (xs ys : List Char) :
    splitNlL (xs ++ '\n' :: ys) = splitNlL xs ++ splitNlL ys := by
  induction xs with
  | nil => simp [splitNlL]
  | cons c cs ih =>
    by_cases h : c = '\n'
    · simp [splitNlL, h, ih]
    · simp only [List.cons_append, splitNlL, if_neg h]
      rcases hs : splitNlL cs with - | ⟨hd, tl⟩
      · exact (splitNlL_ne_nil cs hs).elim
      · simp only [List.append_eq]
        rw [ih, hs]; simp

theorem splitNlL_of_noNl {xs : List Char} (h : '\n' ∉ xs) : splitNlL xs = [xs] := by
  induction xs with
  | nil => simp [splitNlL]
  | cons c cs ih =>
    simp only [List.mem_cons, not_or] at h
    simp only [splitNlL, ih h.2]
    rw [if_neg (fun hc => h.1 hc.symm)]

theorem noNl_of_mem_splitNlL {xs : List Char} {l : List Char} (hl : l ∈ splitNlL xs) :
    '\n' ∉ l := by
  induction xs generalizing l with
  | nil => simp only [splitNlL, List.mem_singleton] at hl; simp [hl]
  | cons c cs ih =>
    by_cases h : c = '\n'
    · simp only [splitNlL, if_pos h, List.mem_cons] at hl
      rcases hl with rfl | hl
      · simp
      · exact ih hl
    · simp only [splitNlL, if_neg h] at hl
      rcases hs : splitNlL cs with - | ⟨hd, tl⟩
      · exact (splitNlL_ne_nil cs hs).elim
      · rw [hs] at hl
        simp only [List.mem_cons] at hl
        rcases hl with rfl | hl
        · intro hmem
          rcases List.mem_cons.mp hmem with rfl | hmem
          · exact h rfl
          · exact ih (hs ▸ List.mem_cons_self hd tl) hmem
        · exact ih (hs ▸ List.mem_cons_of_mem hd hl)

theorem mem_of_mem_splitNlL {xs l : List Char} {c : Char} (hl : l ∈ splitNlL xs)
    (hc : c ∈ l) : c ∈ xs := by
  induction xs generalizing l with
  | nil =>
    simp only [splitNlL, List.mem_singleton] at hl
    subst hl; simp at hc
  | cons b bs ih =>
    by_cases h : b = '\n'
    · simp only [splitNlL, if_pos h, List.mem_cons] at hl
      rcases hl with rfl | hl
      · simp at hc
      · exact List.mem_cons_of_mem b (ih hl hc)
    · simp only [splitNlL, if_neg h] at hl
      rcases hs : splitNlL bs with - | ⟨hd, tl⟩
      · exact (splitNlL_ne_nil bs hs).elim
      · rw [hs] at hl
        simp only [List.mem_cons] at hl
        rcases hl with rfl | hl
        · rcases List.mem_cons.mp hc with rfl | hc
          · simp
          · exact List.mem_cons_of_mem b (ih (hs ▸ List.mem_cons_self hd tl) hc)
        · exact List.mem_cons_of_mem b (ih (hs ▸ List.mem_cons_of_mem hd hl) hc)

theorem joinLinesL_cons (x : List Char) (y : List Char) (rest : List (List Char)) :
    joinLinesL (x :: y :: rest) = x ++ '\n' :: joinLinesL (y :: rest) := rfl

theorem splitNlL_joinLinesL {ls : List (List Char)} (hne : ls ≠ [])
    (h : ∀ l ∈ ls, '\n' ∉ l) : splitNlL (joinLinesL ls) = ls := by
  induction ls with
  | nil => exact (hne rfl).elim
  | cons x rest ih =>
    cases rest with
    | nil => simpa [joinLinesL] using splitNlL_of_noNl (h x (by simp))
    | cons y rest2 =>
      rw [joinLinesL_cons, splitNlL_append,
        splitNlL_of_noNl (h x (by simp)),
        ih (by simp) (fun l hl => h l (List.mem_cons_of_mem x hl))]
      simp

theorem mem_joinLinesL {ls : List (List Char)} {l : List Char} {c : Char}
    (hl : l ∈ ls) (hc : c ∈ l) : c ∈ joinLinesL ls := by
  induction ls with
  | nil => simp at hl
  | cons x rest ih =>
    cases rest with
    | nil =>
      simp only [List.mem_singleton] at hl
      subst hl; simpa [joinLinesL] using hc
    | cons y rest2 =>
      rw [joinLinesL_cons]
      rcases List.mem_cons.mp hl with rfl | hl
      · exact List.mem_append_left _ hc
      · exact List.mem_append_right _ (List.mem_cons_of_mem _ (ih hl))

theorem dropWhile_append_of_all {p : Char → Bool} {xs : List Char} (ys : List Char)
    (h : ∀ c ∈ xs, p c) : (xs ++ ys).dropWhile p = ys.dropWhile p := by
  induction xs with
  | nil => simp
  | cons c cs ih =>
    simp only [List.cons_append, List.dropWhile_cons, h c (by simp), if_pos]
    exact ih (fun d hd => h d (List.mem_cons_of_mem c hd))

theorem dropWhile_append_of_ne {p : Char → Bool} {xs : List Char} (ys : List Char)
    (h : xs.dropWhile p ≠ []) : (xs ++ ys).dropWhile p = xs.dropWhile p ++ ys := by
  induction xs with
  | nil => simp at h
  | cons c cs ih =>
    by_cases hc : p c
    · simp only [List.dropWhile_cons, hc, if_pos] at h ⊢
      simp only [List.cons_append, List.dropWhile_cons, hc, if_pos]
      exact ih h
    · simp only [List.cons_append, List.dropWhile_cons, hc]
      simp

theorem rdropWhile_append_of_all {p : Char → Bool} (xs : List Char) {ys : List Char}
    (h : ∀ c ∈ ys, p c) : (xs ++ ys).rdropWhile p = xs.rdropWhile p := by
  simp only [List.rdropWhile, List.reverse_append]
  rw [dropWhile_append_of_all _ (fun c hc => h c (List.mem_reverse.mp hc))]

theorem rdropWhile_append_of_ne {p : Char → Bool} (xs : List Char) {ys : List Char}
    (h : ys.rdropWhile p ≠ []) : (xs ++ ys).rdropWhile p = xs ++ ys.rdropWhile p := by
  have h2 : ys.reverse.dropWhile p ≠ [] := by
    intro hc
    exact h (by simp [List.rdropWhile, hc])
  simp only [List.rdropWhile, List.reverse_append]
  rw [dropWhile_append_of_ne _ h2, List.reverse_append, List.reverse_reverse]

theorem trimL_eq_nil_iff {xs : List Char} : trimL xs = [] ↔ ∀ c ∈ xs, wsB c := by
  constructor
  · intro h c hc
    rw [trimL, List.rdropWhile_eq_nil_iff] at h
    by_cases hall : xs.dropWhile wsB = []
    · exact List.dropWhile_eq_nil_iff.mp hall c hc
    · have hnot := List.head_dropWhile_not wsB xs hall
      rw [h _ (List.head_mem hall)] at hnot
      simp at hnot
  · intro h
    rw [trimL, List.dropWhile_eq_nil_iff.mpr h]
    simp [List.rdropWhile]

theorem trimL_ne_nil_of_mem {xs : List Char} {c : Char} (hc : c ∈ xs)
    (hw : wsB c = false) : trimL xs ≠ [] := by
  intro h
  rw [trimL_eq_nil_iff] at h
  rw [h c hc] at hw
  simp at hw

/-- Splitting `trim` across a `'\n'` junction: if the trimmed result contains
no newline, then everything on one side of the junction was whitespace and the
result is the trim of the other side. -/
theorem trimL_append_nl (xs ys : List Char) (h : '\n' ∉ trimL (xs ++ '\n' :: ys)) :
    ((∀ c ∈ xs, wsB c) ∧ trimL (xs ++ '\n' :: ys) = trimL ys) ∨
    ((∀ c ∈ ys, wsB c) ∧ trimL (xs ++ '\n' :: ys) = trimL xs) := by
  by_cases hx : ∀ c ∈ xs, wsB c
  · left
    refine ⟨hx, ?_⟩
    rw [trimL, dropWhile_append_of_all _ hx, List.dropWhile_cons]
    rw [if_pos (by decide : wsB '\n' = true), trimL]
  · right
    have hdx : xs.dropWhile wsB ≠ [] := by
      intro hc
      exact hx (List.dropWhile_eq_nil_iff.mp hc)
    by_cases hy : ∀ c ∈ ys, wsB c
    · refine ⟨hy, ?_⟩
      rw [trimL, dropWhile_append_of_ne _ hdx]
      have hall : ∀ c ∈ ('\n' :: ys), wsB c := by
        intro c hc
        rcases List.mem_cons.mp hc with rfl | hc
        · simp [wsB]
        · exact hy c hc
      rw [rdropWhile_append_of_all _ hall, trimL]
    · exfalso
      have hry : ys.rdropWhile wsB ≠ [] := by
        intro hc
        exact hy (List.rdropWhile_eq_nil_iff.mp hc)
      have hr2 : ('\n' :: ys).rdropWhile wsB ≠ [] := by
        have : ('\n' :: ys).rdropWhile wsB = '\n' :: ys.rdropWhile wsB := by
          have := rdropWhile_append_of_ne (p := wsB) ['\n'] hry
          simpa using this
        simp [this]
      apply h
      rw [trimL, dropWhile_append_of_ne _ hdx]
      have : ('\n' :: ys).rdropWhile wsB = '\n' :: ys.rdropWhile wsB := by
        have := rdropWhile_append_of_ne (p := wsB) ['\n'] hry
        simpa using this
      rw [rdropWhile_append_of_ne _ hr2, this]
      simp

/-- If the whole joined content trims to a newline-free value `t`, then every
individual line trims to `t` or to nothing. -/
theorem trimL_mem_of_trimL_join {ls : List (List Char)} {t : List Char}
    (hnl : '\n' ∉ t) (h : trimL (joinLinesL ls) = t) :
    ∀ l ∈ ls, trimL l = t ∨ trimL l = [] := by
  induction ls with
  | nil => simp
  | cons x rest ih =>
    cases rest with
    | nil =>
      intro l hl
      simp only [List.mem_singleton] at hl
      subst hl
      exact Or.inl (by simpa [joinLinesL] using h)
    | cons y rest2 =>
      rw [joinLinesL_cons] at h
      rcases trimL_append_nl x (joinLinesL (y :: rest2)) (h ▸ hnl) with
        ⟨hws, heq⟩ | ⟨hws, heq⟩
      · intro l hl
        rcases List.mem_cons.mp hl with rfl | hl
        · exact Or.inr (trimL_eq_nil_iff.mpr hws)
        · exact ih (heq ▸ h) l hl
      · intro l hl
        rcases List.mem_cons.mp hl with rfl | hl
        · exact Or.inl (heq ▸ h)
        · refine Or.inr (trimL_eq_nil_iff.mpr ?_)
          intro c hc
          exact hws c (mem_joinLinesL hl hc)

/-! ## Hook text merger (`src/git-hooks.ts`) -/

def HOOK_SHEBANG : String := "#!/bin/sh"

def HOOK_COMMAND : String := "npx lockfile-guardian check --hook"

def GUARDIAN_COMMENT : String := "# Lockfile Guardian"

/-- The three fixed hook slots. -/
def GIT_HOOKS : List String := ["post-checkout", "post-merge", "post-rewrite"]

/-- `createHookContent(existingContent?, isHusky)` from `src/git-hooks.ts`:
if the (truthy, non-whitespace) existing content already has a line including
the hook command, return it unchanged; otherwise for Husky append a blank
line, the identifying comment and the hook line at the end, and for
traditional hooks splice them right after the first shebang line (prepending
a synthesized shebang when none exists).  Absent or blank content gets fresh
minimal content. -/
def createHookContent (existingContent : Option String) (isHusky : Bool) : String :=
  let hookLine := HOOK_COMMAND
  match existingContent with
  | some content =>
    if content ≠ "" ∧ jsTrim content ≠ "" then
      let lines := splitNl content
      if lines.any (fun line => jsIncludes line HOOK_COMMAND) then
        content
      else if isHusky then
        content ++ "\n\n# Lockfile Guardian\n" ++ hookLine
      else
        match lines.findIdx? (fun line => jsStartsWith line "#!") with
        | some shebangIndex =>
            joinLines (lines.take (shebangIndex + 1) ++
              ["", GUARDIAN_COMMENT, hookLine] ++ lines.drop (shebangIndex + 1))
        | none =>
            joinLines ([HOOK_SHEBANG, "", GUARDIAN_COMMENT, hookLine] ++ lines)
    else
      if isHusky then joinLines [GUARDIAN_COMMENT, hookLine, ""]
      else joinLines [HOOK_SHEBANG, "", GUARDIAN_COMMENT, hookLine, ""]
  | none =>
    if isHusky then joinLines [GUARDIAN_COMMENT, hookLine, ""]
    else joinLines [HOOK_SHEBANG, "", GUARDIAN_COMMENT, hookLine, ""]

/-- `removeHookContent(content, isHusky)` from `src/git-hooks.ts`: filter out
every line whose text includes the hook command or the identifying comment;
`none` signals "delete the file" (blank remainder, or — for traditional
hooks — a remainder that trims to exactly the bare shebang). -/
def removeHookContent (content : String) (isHusky : Bool) : Option String :=
  let lines := splitNl content
  let filteredLines := lines.filter
    (fun line => !jsIncludes line HOOK_COMMAND && !jsIncludes line GUARDIAN_COMMENT)
  let remainingContent := jsTrim (joinLines filteredLines)
  if isHusky then
    if remainingContent = "" then none
    else some (joinLines filteredLines)
  else
    if remainingContent = HOOK_SHEBANG ∨ remainingContent = "" then none
    else some (joinLines filteredLines)

/-! ## Lockfile detector (`src/utils.ts`) -/

structure PackageManager where
  name : String
  lockFile : String
  installCommand : String
deriving DecidableEq

/-- The three supported package managers, in detection priority order. -/
def PACKAGE_MANAGERS : List PackageManager :=
  [⟨"pnpm", "pnpm-lock.yaml", "pnpm install"⟩,
   ⟨"yarn", "yarn.lock", "yarn install"⟩,
   ⟨"npm", "package-lock.json", "npm install"⟩]

structure LockfileInfo where
  path : String
  packageManager : PackageManager
  hash : String
deriving DecidableEq

/-- The `for`-loop body of `findLockfile`: try each descriptor in order. -/
def findLockfileAux (cwd : String) (ex : String → Bool) (hashOf : String → String) :
    List PackageManager → Option LockfileInfo
  | [] => none
  | pm :: rest =>
    if ex pm.lockFile then
      some ⟨cwd ++ "/" ++ pm.lockFile, pm, hashOf pm.lockFile⟩
    else findLockfileAux cwd ex hashOf rest

/-- `findLockfile(cwd)` from `src/utils.ts`; the directory is modelled by the
membership function `ex` (which lockfile names exist in `cwd`) and the hash
computation by `hashOf` (SHA-256 hex digest of the named file's content). -/
def findLockfile (cwd : String) (ex : String → Bool) (hashOf : String → String) :
    Option LockfileInfo :=
  findLockfileAux cwd ex hashOf PACKAGE_MANAGERS

/-! ## Change detector (`src/guardian.ts`, deferred-update variant) -/

structure LockfileGuardianConfig where
  autoInstall : Bool
  silent : Bool
  checkNodeModules : Bool
deriving DecidableEq

/-- The effectful surroundings of one `checkLockfile` invocation: the
configuration, the directory contents (for `findLockfile`), the stored
fingerprint file's content (`none` = file absent), the `.gitignore` state and
the outcome of the install subprocess (used only under `autoInstall`). -/
structure GuardianEnv where
  config : LockfileGuardianConfig
  files : String → Bool
  hashOf : String → String
  storedFile : Option String
  nodeModulesIgnored : Bool
  installOk : Bool

/-- `getStoredHash`: read the fingerprint file and trim it (`none` when the
file is absent or unreadable). -/
def getStoredHash (env : GuardianEnv) : Option String :=
  env.storedFile.map jsTrim

/-- `createWarningBox(lockfileName, installCommand)` from `src/guardian.ts`,
verbatim. -/
def createWarningBox (lockfileName installCommand : String) : String :=
  let separator := "====================================="
  joinLines
    [separator,
     "⚠️  DEPENDENCIES OUT OF DATE  ⚠️",
     separator,
     "Lock file " ++ lockfileName ++ " has changed!",
     "",
     "Run this command to update:",
     "  " ++ installCommand,
     separator]

/-- `log(message, silent)`: suppressed when silent.  (In contrast,
`logWarning`/`logError` print unconditionally; they are modelled by plain
singleton lists below.) -/
def logMsg (message : String) (silent : Bool) : List String :=
  if silent then [] else [message]

/-- `checkLockfile(isHook, cwd)` from `src/guardian.ts` (the variant whose
auto-install path defers the fingerprint update to the post-install
confirmation).  The result is the list of console messages emitted, in order,
paired with the fingerprint file's content after the call. -/
def checkLockfile (isHook : Bool) (cwd : String) (env : GuardianEnv) :
    List String × Option String :=
  let config := env.config
  match findLockfile cwd env.files env.hashOf with
  | none =>
    ((if !isHook then
        ["No lockfile found. Supported lockfiles: pnpm-lock.yaml, yarn.lock, package-lock.json"]
      else []), env.storedFile)
  | some lockfileInfo =>
    let nmWarn :=
      if config.checkNodeModules && !env.nodeModulesIgnored then
        ["⚠️  Warning: node_modules is not in .gitignore"]
      else []
    let storedHash := getStoredHash env
    let currentHash := lockfileInfo.hash
    if storedHash = none ∨ storedHash = some "" then
      (nmWarn ++ (if !isHook then logMsg "🔒 Lockfile Guardian initialized" config.silent else []),
       some currentHash)
    else if storedHash = some currentHash then
      (nmWarn ++ (if !isHook then logMsg "✅ Dependencies are up to date" config.silent else []),
       env.storedFile)
    else
      let lockfileName := lockfileInfo.packageManager.lockFile
      let installCommand := lockfileInfo.packageManager.installCommand
      if config.autoInstall then
        (nmWarn ++
         logMsg ("🔒 Lock file " ++ lockfileName ++ " has changed!") config.silent ++
         logMsg ("🔒 Auto-installing dependencies with " ++
           lockfileInfo.packageManager.name ++ "...") config.silent ++
         (if env.installOk then
            logMsg "🔒 Dependencies updated successfully!" config.silent
          else
            ["🔒 Failed to install dependencies. Please run manually:",
             "  " ++ installCommand]),
         env.storedFile)
      else
        (nmWarn ++ [createWarningBox lockfileName installCommand], env.storedFile)

/-! ## Fingerprint store path (`getGuardianDataPath`, monorepo variant) -/

/-- The character class `[a-zA-Z0-9-_]` of the sanitizing regex. -/
def isSafeChar (c : Char) : Bool :=
  ('a' ≤ c && c ≤ 'z') || ('A' ≤ c && c ≤ 'Z') || ('0' ≤ c && c ≤ '9') ||
  c = '-' || c = '_'

/-- `relativePath.replace(/[^a-zA-Z0-9-_]/g, "_")`. -/
def sanitize (s : String) : String :=
  String.mk (s.data.map (fun c => if isSafeChar c then c else '_'))

/-- First-occurrence replacement on character lists (JavaScript
`String.prototype.replace` with a string pattern). -/
def replaceFirstL (pat rep : List Char) : List Char → List Char
  | [] => []
  | x :: xs =>
    if isPreL pat (x :: xs) then rep ++ (x :: xs).drop pat.length
    else x :: replaceFirstL pat rep xs

/-- JavaScript `s.replace(pat, rep)` for a plain-string pattern. -/
def jsReplaceFirst (s pat rep : String) : String :=
  String.mk (replaceFirstL pat.data rep.data s.data)

/-- `.replace(/^\//, "")`. -/
def stripLeadingSlash (s : String) : String :=
  match s.data with
  | '/' :: rest => String.mk rest
  | _ => s

/-- `getGuardianDataPath(cwd)` from the monorepo-aware utils variant:
`cwd` and `gitRoot` are the already-resolved project directory and repository
root.  At the root the legacy flat path is used; otherwise the relative path
is sanitized and nested under `.git/lockfile-guardian/`. -/
def getGuardianDataPath (cwd gitRoot : String) : String :=
  if cwd = gitRoot then
    gitRoot ++ "/.git/lockfile-guardian"
  else
    let relativePath := stripLeadingSlash (jsReplaceFirst cwd gitRoot "")
    let safePath := sanitize relativePath
    gitRoot ++ "/.git/lockfile-guardian/" ++ safePath

/-! ## Hook directory resolver (monorepo-aware utils variant) -/

/-- The configuration surroundings of the hook-directory resolver:
whether the `.husky` directory exists at the repository root, and the result
of `git config --get core.hooksPath` (`none` models the command failing, in
particular when the key is unset), plus the abstract path resolution
`res p = resolve(gitRoot, p)`. -/
structure HooksEnv where
  huskyExists : Bool
  hooksPathConfig : Option String
  res : String → String

/-- `getGitHooksDir`: `join(gitRoot, ".git", "hooks")`. -/
def getGitHooksDir (gitRoot : String) : String :=
  gitRoot ++ "/.git/hooks"

/-- `getHuskyHooksDir`: `join(gitRoot, ".husky")`. -/
def getHuskyHooksDir (gitRoot : String) : String :=
  gitRoot ++ "/.husky"

/-- `getGitHooksPath`: resolve a configured `core.hooksPath` against the
repository root; on configuration-read failure fall back to `.git/hooks`. -/
def getGitHooksPath (env : HooksEnv) (gitRoot : String) : String :=
  match env.hooksPathConfig with
  | some result => env.res (jsTrim result)
  | none => getGitHooksDir gitRoot

/-- `isHuskyProject`: the `.husky` directory exists and the configured
`core.hooksPath` resolves to the same absolute path (configuration-read
failure counts as "no"). -/
def isHuskyProject (env : HooksEnv) : Bool :=
  env.huskyExists &&
    match env.hooksPathConfig with
    | some hooksPath => env.res (jsTrim hooksPath) == env.res ".husky"
    | none => false

/-- `getActiveHooksDir`. -/
def getActiveHooksDir (env : HooksEnv) (gitRoot : String) : String :=
  if isHuskyProject env then getHuskyHooksDir gitRoot
  else getGitHooksPath env gitRoot

/-! ## Repository locator (`findGitRoot`) -/

/-- `findGitRoot`'s upward walk, with directories modelled as segment lists
(`[]` is the filesystem root, `List.dropLast` is `resolve(dir, "..")`).
The `while (currentDir !== root)` loop never examines the root itself. -/
def findGitRoot (hasGit : List String → Bool) : List String → Option (List String)
  | [] => none
  | x :: xs =>
    if hasGit (x :: xs) then some (x :: xs)
    else findGitRoot hasGit (x :: xs).dropLast
termination_by d => d.length
decreasing_by simp [List.length_dropLast]

/-- The same walk with explicit fuel; `none` models a loop that has not yet
exited after the given number of iterations (used to state termination). -/
def findGitRootLoop (hasGit : List String → Bool) :
    Nat → List String → Option (Option (List String))
  | _, [] => some none
  | 0, _ :: _ => none
  | fuel + 1, x :: xs =>
    if hasGit (x :: xs) then some (some (x :: xs))
    else findGitRootLoop hasGit fuel (x :: xs).dropLast

/-- The chain of directories the walk examines: the start and its ancestors,
excluding the filesystem root. -/
def strictAncestors : List String → List (List String)
  | [] => []
  | x :: xs => (x :: xs) :: strictAncestors (x :: xs).dropLast
termination_by d => d.length
decreasing_by simp [List.length_dropLast]

/-! ## Hook installation / uninstallation (`src/git-hooks.ts`) -/

/-- `installGitHooks(cwd)`: throws when not in a git repository, otherwise
writes merged content into each of the three hook slots.  `fs` maps a hook
file path to its content. -/
def installGitHooks (isRepo isHusky : Bool) (hooksDir : String)
    (fs : String → Option String) : Except String (String → Option String) :=
  if !isRepo then
    Except.error "Not a git repository. Please run this command in a git repository."
  else
    Except.ok (GIT_HOOKS.foldl (fun acc hook =>
      let hookPath := hooksDir ++ "/" ++ hook
      let existingContent := match acc hookPath with | some c => c | none => ""
      let newContent := createHookContent (some existingContent) isHusky
      fun q => if q = hookPath then some newContent else acc q) fs)

/-- `uninstallGitHooks(cwd)`: silently a no-op when not in a git repository,
otherwise strips the guardian lines from each existing hook slot, deleting
files whose remainder is trivial. -/
def uninstallGitHooks (isRepo isHusky : Bool) (hooksDir : String)
    (fs : String → Option String) : String → Option String :=
  if !isRepo then fs
  else
    GIT_HOOKS.foldl (fun acc hook =>
      let hookPath := hooksDir ++ "/" ++ hook
      match acc hookPath with
      | none => acc
      | some content =>
        match removeHookContent content isHusky with
        | none => fun q => if q = hookPath then none else acc q
        | some newContent => fun q => if q = hookPath then some newContent else acc q) fs

/-! ## Derived notions used in the statements -/

/-- Number of lines of a hook script that include the marker command. -/
def countMarkerLines (s : String) : Nat :=
  (splitNl s).countP (fun line => jsIncludes line HOOK_COMMAND)

/-- A shell-effective line: non-blank and not a comment (its trimmed form
does not start with `#`).  Blank lines and comment lines are inert when the
hook script runs. -/
def effectiveLine (line : String) : Bool :=
  !(jsTrim line == "") && !jsStartsWith (jsTrim line) "#"

/-- The shell-effective lines of a script. -/
def effLines (s : String) : List String :=
  (splitNl s).filter effectiveLine

/-- The shell-effective lines of an optional file ("file absent" behaves as
the empty script). -/
def effOpt : Option String → List String
  | none => []
  | some s => effLines s

/-- The line array of an optional file. -/
def linesOpt : Option String → List String
  | none => []
  | some s => splitNl s

/-- The full upward chain from a directory to the filesystem root, both
endpoints included. -/
def inclusiveAncestors : List String → List (List String)
  | [] => [[]]
  | x :: xs => (x :: xs) :: inclusiveAncestors (x :: xs).dropLast
termination_by d => d.length
decreasing_by simp [List.length_dropLast]

/-- The repository-locator contract exactly as the claim words it: the
nearest directory, from the start upward and inclusive of the start, that
contains a version-control metadata directory.  (Used to compare the code
against the claim.) -/
def specGitRoot (hasGit : List String → Bool) (d : List String) : Option (List String) :=
  (inclusiveAncestors d).find? hasGit

/-! ## General helper lemmas -/

theorem String_mk_eq_empty_iff (l : List Char) : String.mk l = "" ↔ l = [] := by
  constructor
  · intro h
    have := congrArg String.data h
    simpa using this
  · rintro rfl; rfl

theorem jsTrim_eq_empty_iff (s : String) : jsTrim s = "" ↔ ∀ c ∈ s.data, wsB c := by
  rw [jsTrim, String_mk_eq_empty_iff, trimL_eq_nil_iff]

theorem jsTrim_ne_empty_of_mem {s : String} {c : Char} (hc : c ∈ s.data)
    (hw : wsB c = false) : jsTrim s ≠ "" := by
  intro h
  rw [jsTrim_eq_empty_iff] at h
  rw [h c hc] at hw
  simp at hw

theorem ne_empty_of_mem {s : String} {c : Char} (hc : c ∈ s.data) : s ≠ "" := by
  intro h
  subst h
  simp at hc

theorem mem_data_of_mem_splitNl {s line : String} (hl : line ∈ splitNl s) {c : Char}
    (hc : c ∈ line.data) : c ∈ s.data := by
  rw [splitNl] at hl
  rcases List.mem_map.mp hl with ⟨l, hlmem, rfl⟩
  exact mem_of_mem_splitNlL hlmem hc

theorem noNl_of_mem_splitNl {s line : String} (hl : line ∈ splitNl s) :
    '\n' ∉ line.data := by
  rw [splitNl] at hl
  rcases List.mem_map.mp hl with ⟨l, hlmem, rfl⟩
  exact noNl_of_mem_splitNlL hlmem

theorem splitNl_joinLines {ls : List String} (hne : ls ≠ [])
    (h : ∀ l ∈ ls, '\n' ∉ l.data) : splitNl (joinLines ls) = ls := by
  rw [splitNl, joinLines]
  show (splitNlL (joinLinesL (ls.map String.data))).map String.mk = ls
  rw [splitNlL_joinLinesL (by simpa using hne)
      (by
        intro l hlm
        rcases List.mem_map.mp hlm with ⟨l0, hl0, rfl⟩
        exact h l0 hl0)]
  rw [List.map_map]
  have : (String.mk ∘ String.data) = id := by
    funext s; rfl
  rw [this, List.map_id]

theorem mem_data_joinLines {ls : List String} {line : String} (hl : line ∈ ls)
    {c : Char} (hc : c ∈ line.data) : c ∈ (joinLines ls).data := by
  rw [joinLines]
  exact mem_joinLinesL (List.mem_map_of_mem String.data hl) hc

theorem splitNl_append_nl (s t : String) :
    splitNl (s ++ "\n" ++ t) = splitNl s ++ splitNl t := by
  rw [splitNl, splitNl, splitNl]
  have hdata : (s ++ "\n" ++ t).data = s.data ++ '\n' :: t.data := by
    rw [String.data_append, String.data_append]
    show s.data ++ ['\n'] ++ t.data = s.data ++ '\n' :: t.data
    simp
  rw [hdata, splitNlL_append, List.map_append]

theorem jsTrim_eq_hookShebang_lines {ls : List String}
    (h : jsTrim (joinLines ls) = HOOK_SHEBANG) :
    ∀ l ∈ ls, jsTrim l = HOOK_SHEBANG ∨ jsTrim l = "" := by
  intro l hl
  have hchar : '\n' ∉ HOOK_SHEBANG.data := by decide
  have := @trimL_mem_of_trimL_join (ls.map String.data) HOOK_SHEBANG.data
    hchar (by
      have := congrArg String.data h
      simpa [jsTrim, joinLines] using this)
    l.data (List.mem_map_of_mem String.data hl)
  rcases this with h1 | h1
  · left
    rw [jsTrim, h1]
  · right
    rw [jsTrim, h1]

theorem jsTrim_empty_lines {ls : List String} (h : jsTrim (joinLines ls) = "") :
    ∀ l ∈ ls, jsTrim l = "" := by
  intro l hl
  rw [jsTrim_eq_empty_iff] at h ⊢
  intro c hc
  exact h c (mem_data_joinLines hl hc)

theorem isSubL_cons_of {pat t : List Char} (c : Char) (h : isSubL pat t = true) :
    isSubL pat (c :: t) = true := by
  rw [isSubL_iff] at h ⊢
  rcases h with ⟨l, r, rfl⟩
  exact ⟨c :: l, r, rfl⟩

/-! ## C10 — uninstall is safe outside a repository, install throws -/

/-- C10: when the working directory is not inside a git repository,
`uninstallGitHooks` returns normally and leaves every hook file untouched,
while `installGitHooks` throws the "Not a git repository" error.  Uninstall
is therefore always safe to invoke where install is a precondition
failure. -/
theorem uninstall_safe_outside_repo (isHusky : Bool) (hooksDir : String)
    (fs : String → Option String) :
    uninstallGitHooks false isHusky hooksDir fs = fs ∧
    installGitHooks false isHusky hooksDir fs =
      Except.error "Not a git repository. Please run this command in a git repository." :=
  ⟨rfl, rfl⟩

/-! ## C9 — repository locator: termination and which directory is found -/

/-- C9 counterexample: when the start directory is the filesystem root and
the root itself contains a `.git` directory, the locator still reports "not
found" — the claim's "nearest directory, inclusive of the start" would be
the root itself. -/
theorem findGitRoot_root_cx :
    findGitRoot (fun _ => true) ([] : List String) = none ∧
    specGitRoot (fun _ => true) ([] : List String) = some [] ∧
    (fun (_ : List String) => true) ([] : List String) = true := by
  refine ⟨?_, ?_, rfl⟩
  · simp [findGitRoot]
  · simp [specGitRoot, inclusiveAncestors]

/-- C9 (amended): the upward walk exits within `length d` iterations
(termination: the parent chain strictly shortens until the root is reached),
and it returns the nearest directory containing a `.git` directory from the
start upward, inclusive of the start but excluding the filesystem root
itself, which the loop never examines. -/
theorem findGitRoot_terminates_and_finds (hasGit : List String → Bool)
    (d : List String) :
    findGitRootLoop hasGit d.length d = some (findGitRoot hasGit d) ∧
    findGitRoot hasGit d = (strictAncestors d).find? hasGit := by
  have main : ∀ n (d : List String), d.length = n →
      findGitRootLoop hasGit d.length d = some (findGitRoot hasGit d) ∧
      findGitRoot hasGit d = (strictAncestors d).find? hasGit := by
    intro n
    induction n using Nat.strong_induction_on with
    | _ n ih =>
      intro d hd
      cases d with
      | nil =>
        simp [findGitRootLoop, findGitRoot, strictAncestors]
      | cons x xs =>
        have hlen : (x :: xs).dropLast.length = xs.length := by
          simp [List.length_dropLast]
        have hxs : xs.length < n := by
          simp only [List.length_cons] at hd
          omega
        have IH := ih xs.length hxs ((x :: xs).dropLast) hlen
        by_cases hx : hasGit (x :: xs)
        · constructor
          · simp [findGitRootLoop, findGitRoot, hx]
          · rw [findGitRoot, strictAncestors]
            simp [hx, List.find?_cons]
        · constructor
          · rw [show (x :: xs).length = xs.length + 1 from rfl]
            rw [findGitRootLoop]
            rw [if_neg (by simp [hx])]
            rw [← hlen]
            rw [IH.1, findGitRoot]
            rw [if_neg (by simp [hx])]
          · rw [findGitRoot, strictAncestors]
            rw [if_neg (by simp [hx])]
            simp only [List.find?_cons, hx]
            exact IH.2
  exact main d.length d rfl

/-! ## C7 — lockfile detection priority -/

/-- C7: `findLockfile` checks the marker filenames in the fixed order
pnpm-lock.yaml, yarn.lock, package-lock.json, returning the first one
present; in particular any directory containing the pnpm lockfile — e.g. one
containing all three — always yields the pnpm descriptor. -/
theorem findLockfile_priority (cwd : String) (ex : String → Bool)
    (hashOf : String → String) :
    findLockfile cwd ex hashOf =
      (if ex "pnpm-lock.yaml" then
        some ⟨cwd ++ "/" ++ "pnpm-lock.yaml",
          ⟨"pnpm", "pnpm-lock.yaml", "pnpm install"⟩, hashOf "pnpm-lock.yaml"⟩
       else if ex "yarn.lock" then
        some ⟨cwd ++ "/" ++ "yarn.lock",
          ⟨"yarn", "yarn.lock", "yarn install"⟩, hashOf "yarn.lock"⟩
       else if ex "package-lock.json" then
        some ⟨cwd ++ "/" ++ "package-lock.json",
          ⟨"npm", "package-lock.json", "npm install"⟩, hashOf "package-lock.json"⟩
       else none) ∧
    (ex "pnpm-lock.yaml" = true →
      (findLockfile cwd ex hashOf).map (fun info => info.packageManager.name) =
        some "pnpm") := by
  constructor
  · rfl
  · intro h
    simp [findLockfile, findLockfileAux, PACKAGE_MANAGERS, h]

/-- C7 witness: a directory containing all three lockfiles selects pnpm. -/
theorem findLockfile_priority_witness :
    (findLockfile "/p" (fun _ => true) (fun _ => "h")).map
        (fun info => info.packageManager.name) = some "pnpm" :=
  (findLockfile_priority "/p" (fun _ => true) (fun _ => "h")).2 rfl

theorem String_eq_of_data {a b : String} (h : a.data = b.data) : a = b :=
  congrArg String.mk h

theorem append_left_cancel_str {a b c : String} (h : a ++ b = a ++ c) : b = c := by
  apply String_eq_of_data
  have := congrArg String.data h
  rw [String.data_append, String.data_append] at this
  exact List.append_cancel_left this

/-! ## C5 — fingerprint-store path isolation -/

/-- C5 counterexample: the sanitization `[^a-zA-Z0-9-_] → "_"` is not
injective, so the two distinct project subdirectories `/repo/a/b` and
`/repo/a_b` beneath the same repository root map to the same fingerprint
path and would overwrite each other's stored fingerprint. -/
theorem getGuardianDataPath_collision_cx :
    getGuardianDataPath "/repo/a/b" "/repo" = getGuardianDataPath "/repo/a_b" "/repo" ∧
    ("/repo/a/b" : String) ≠ "/repo/a_b" := by
  constructor
  · rfl
  · decide

theorem replaceFirstL_self_append (pat r : List Char) :
    replaceFirstL pat [] (pat ++ r) = r := by
  cases h : pat ++ r with
  | nil =>
    rw [replaceFirstL]
    rcases List.append_eq_nil.mp h with ⟨-, h2⟩
    exact h2.symm
  | cons x xs =>
    have hpre : isPreL pat (x :: xs) = true := by
      rw [← h]
      exact (isPreL_iff pat (pat ++ r)).mpr ⟨r, rfl⟩
    rw [replaceFirstL, if_pos hpre, List.nil_append, ← h, List.drop_left]

theorem getGuardianDataPath_sub (root rel : String) :
    getGuardianDataPath (root ++ "/" ++ rel) root =
      root ++ "/.git/lockfile-guardian/" ++ sanitize rel := by
  have hne : root ++ "/" ++ rel ≠ root := by
    intro h
    have h2 := congrArg String.data h
    simp only [String.data_append] at h2
    have h3 := congrArg List.length h2
    simp at h3
  rw [getGuardianDataPath, if_neg hne]
  have hdata : (root ++ "/" ++ rel).data = root.data ++ ('/' :: rel.data) := by
    rw [String.data_append, String.data_append]
    simp
  have hrep : jsReplaceFirst (root ++ "/" ++ rel) root "" = "/" ++ rel := by
    rw [jsReplaceFirst, hdata]
    rw [show ("" : String).data = [] from rfl]
    rw [replaceFirstL_self_append]
    apply String_eq_of_data
    rw [String.data_append]
    rfl
  rw [hrep]
  have hstrip : stripLeadingSlash ("/" ++ rel) = rel := by
    have h2 : ("/" ++ rel).data = '/' :: rel.data := by
      rw [String.data_append]; rfl
    rw [stripLeadingSlash, h2]
    rfl
  rw [hstrip]

/-- C5 (amended): distinct project subdirectories whose *sanitized* relative
paths differ always get distinct fingerprint paths, and every strict
subdirectory's path is distinct from the legacy flat path used at the
repository root; the blanket "no collision between sibling projects",
however, fails when sanitization identifies the two relative paths (see the
counterexample). -/
theorem getGuardianDataPath_isolation (root rel1 rel2 : String)
    (h : sanitize rel1 ≠ sanitize rel2) :
    getGuardianDataPath (root ++ "/" ++ rel1) root ≠
      getGuardianDataPath (root ++ "/" ++ rel2) root ∧
    getGuardianDataPath (root ++ "/" ++ rel1) root ≠ getGuardianDataPath root root ∧
    getGuardianDataPath (root ++ "/" ++ rel2) root ≠ getGuardianDataPath root root := by
  have legacy : getGuardianDataPath root root = root ++ "/.git/lockfile-guardian" := by
    rw [getGuardianDataPath, if_pos rfl]
  have hlegacy : ∀ rel : String,
      getGuardianDataPath (root ++ "/" ++ rel) root ≠ getGuardianDataPath root root := by
    intro rel he
    rw [getGuardianDataPath_sub, legacy] at he
    have h2 := congrArg String.data he
    simp only [String.data_append] at h2
    have h3 := congrArg List.length h2
    simp at h3
  refine ⟨?_, hlegacy rel1, hlegacy rel2⟩
  intro he
  rw [getGuardianDataPath_sub, getGuardianDataPath_sub] at he
  exact h (append_left_cancel_str he)

/-- C5 witness: sibling subdirectories `a` and `b` under a repository root
get distinct fingerprint paths, both distinct from the legacy flat path. -/
theorem getGuardianDataPath_isolation_witness :
    getGuardianDataPath ("/repo" ++ "/" ++ "a") "/repo" ≠
      getGuardianDataPath ("/repo" ++ "/" ++ "b") "/repo" ∧
    getGuardianDataPath ("/repo" ++ "/" ++ "a") "/repo" ≠
      getGuardianDataPath "/repo" "/repo" ∧
    getGuardianDataPath ("/repo" ++ "/" ++ "b") "/repo" ≠
      getGuardianDataPath "/repo" "/repo" :=
  getGuardianDataPath_isolation "/repo" "a" "b" (by decide)

/-! ## C8 — hook directory resolution -/

/-- C8 counterexample: when `core.hooksPath` is configured as `.husky` but
the `.husky` directory does not exist, the resolver still returns the
`.husky` path (through the custom-hooks-path branch), so "the active hook
directory is the hook-manager directory only if that directory exists" fails
as stated. -/
theorem getActiveHooksDir_cx :
    getActiveHooksDir ⟨false, some ".husky", fun s => "/r/" ++ s⟩ "/r" =
      getHuskyHooksDir "/r" ∧
    HooksEnv.huskyExists ⟨false, some ".husky", fun s => "/r/" ++ s⟩ = false := by
  constructor
  · rfl
  · rfl

/-- C8 (amended): the hook-manager branch is taken exactly when the `.husky`
directory exists and the configured hooks-path resolves to it; otherwise a
configured custom hooks-path (resolved against the repository root) is used
— which can still coincide with the `.husky` path when the configuration
points there even though the directory is absent —; otherwise, including
whenever the configuration read fails, the conventional `.git/hooks`
directory is used.  The mere existence of a `.husky` directory with no
matching configuration never selects it. -/
theorem getActiveHooksDir_spec (env : HooksEnv) (gitRoot : String)
    (hres : env.res ".husky" = getHuskyHooksDir gitRoot) :
    (isHuskyProject env = true →
      getActiveHooksDir env gitRoot = getHuskyHooksDir gitRoot ∧
      env.huskyExists = true ∧
      ∃ s, env.hooksPathConfig = some s ∧
        env.res (jsTrim s) = getHuskyHooksDir gitRoot) ∧
    (env.hooksPathConfig = none →
      getActiveHooksDir env gitRoot = getGitHooksDir gitRoot) ∧
    (∀ s, env.hooksPathConfig = some s → isHuskyProject env = false →
      getActiveHooksDir env gitRoot = env.res (jsTrim s)) ∧
    (env.huskyExists = true → isHuskyProject env = false →
      getActiveHooksDir env gitRoot ≠ getHuskyHooksDir gitRoot) := by
  have hdirs : getGitHooksDir gitRoot ≠ getHuskyHooksDir gitRoot := by
    intro he
    rw [getGitHooksDir, getHuskyHooksDir] at he
    have : ("/.git/hooks" : String) = "/.husky" := append_left_cancel_str he
    have := congrArg String.data this
    simp at this
  refine ⟨?_, ?_, ?_, ?_⟩
  · intro hH
    rw [isHuskyProject, Bool.and_eq_true] at hH
    obtain ⟨hex, hmatch⟩ := hH
    refine ⟨?_, hex, ?_⟩
    · rw [getActiveHooksDir, if_pos (by rw [isHuskyProject, Bool.and_eq_true]; exact ⟨hex, hmatch⟩)]
    · cases hc : env.hooksPathConfig with
      | none => rw [hc] at hmatch; simp at hmatch
      | some s =>
        rw [hc] at hmatch
        simp only [beq_iff_eq] at hmatch
        exact ⟨s, rfl, hmatch.trans hres⟩
  · intro hc
    have hH : isHuskyProject env = false := by
      rw [isHuskyProject, hc]
      simp
    rw [getActiveHooksDir, if_neg (by simp [hH]), getGitHooksPath, hc]
  · intro s hc hH
    rw [getActiveHooksDir, if_neg (by simp [hH]), getGitHooksPath, hc]
  · intro hex hH
    rw [getActiveHooksDir, if_neg (by simp [hH])]
    cases hc : env.hooksPathConfig with
    | none =>
      rw [getGitHooksPath, hc]
      exact hdirs
    | some s =>
      rw [getGitHooksPath, hc]
      rw [isHuskyProject, hc, hex] at hH
      simp only [Bool.true_and, beq_eq_false_iff_ne, ne_eq] at hH
      rw [← hres]
      exact hH

/-- C8 witness: a repository whose `.husky` directory exists but whose
configured hooks-path points elsewhere keeps `.git/hooks`-style resolution
away from `.husky`. -/
theorem getActiveHooksDir_spec_witness :
    ((isHuskyProject ⟨true, none, fun s => "/r/" ++ s⟩ = true →
      getActiveHooksDir ⟨true, none, fun s => "/r/" ++ s⟩ "/r" = getHuskyHooksDir "/r" ∧
      HooksEnv.huskyExists ⟨true, none, fun s => "/r/" ++ s⟩ = true ∧
      ∃ s, HooksEnv.hooksPathConfig ⟨true, none, fun s => "/r/" ++ s⟩ = some s ∧
        HooksEnv.res ⟨true, none, fun s => "/r/" ++ s⟩ (jsTrim s) = getHuskyHooksDir "/r") ∧
    (HooksEnv.hooksPathConfig ⟨true, none, fun s => "/r/" ++ s⟩ = none →
      getActiveHooksDir ⟨true, none, fun s => "/r/" ++ s⟩ "/r" = getGitHooksDir "/r") ∧
    (∀ s, HooksEnv.hooksPathConfig ⟨true, none, fun s => "/r/" ++ s⟩ = some s →
      isHuskyProject ⟨true, none, fun s => "/r/" ++ s⟩ = false →
      getActiveHooksDir ⟨true, none, fun s => "/r/" ++ s⟩ "/r" =
        HooksEnv.res ⟨true, none, fun s => "/r/" ++ s⟩ (jsTrim s)) ∧
    (HooksEnv.huskyExists ⟨true, none, fun s => "/r/" ++ s⟩ = true →
      isHuskyProject ⟨true, none, fun s => "/r/" ++ s⟩ = false →
      getActiveHooksDir ⟨true, none, fun s => "/r/" ++ s⟩ "/r" ≠ getHuskyHooksDir "/r")) :=
  getActiveHooksDir_spec ⟨true, none, fun s => "/r/" ++ s⟩ "/r" rfl

/-! ## C6 — warning block on a changed fingerprint -/

theorem findLockfileAux_pm_mem {cwd : String} {ex : String → Bool}
    {hashOf : String → String} {l : List PackageManager} {info : LockfileInfo}
    (h : findLockfileAux cwd ex hashOf l = some info) : info.packageManager ∈ l := by
  induction l with
  | nil => simp [findLockfileAux] at h
  | cons pm rest ih =>
    rw [findLockfileAux] at h
    by_cases hex : ex pm.lockFile
    · rw [if_pos hex] at h
      cases h
      exact List.mem_cons_self pm rest
    · rw [if_neg hex] at h
      exact List.mem_cons_of_mem pm (ih h)

theorem findLockfile_pm_mem {cwd : String} {ex : String → Bool}
    {hashOf : String → String} {info : LockfileInfo}
    (h : findLockfile cwd ex hashOf = some info) :
    info.packageManager ∈ PACKAGE_MANAGERS :=
  findLockfileAux_pm_mem h

theorem jsIncludes_append_self (a b : String) : jsIncludes (a ++ b) b = true := by
  rw [jsIncludes, isSubL_iff]
  exact ⟨a.data, [], by simp [String.data_append]⟩

theorem splitNl_createWarningBox (name cmd : String) (hn : '\n' ∉ name.data)
    (hc : '\n' ∉ cmd.data) :
    splitNl (createWarningBox name cmd) =
      ["=====================================",
       "⚠️  DEPENDENCIES OUT OF DATE  ⚠️",
       "=====================================",
       "Lock file " ++ name ++ " has changed!",
       "",
       "Run this command to update:",
       "  " ++ cmd,
       "====================================="] := by
  rw [createWarningBox]
  apply splitNl_joinLines (by simp)
  intro l hl
  simp only [List.mem_cons, List.not_mem_nil, or_false] at hl
  rcases hl with rfl | rfl | rfl | rfl | rfl | rfl | rfl | rfl
  · decide
  · decide
  · decide
  · intro hmem
    rw [String.data_append, String.data_append] at hmem
    rcases List.mem_append.mp hmem with h1 | h1
    · rcases List.mem_append.mp h1 with h2 | h2
      · revert h2; decide
      · exact hn h2
    · revert h1; decide
  · decide
  · decide
  · intro hmem
    rw [String.data_append] at hmem
    rcases List.mem_append.mp hmem with h1 | h1
    · revert h1; decide
    · exact hc h1
  · decide

/-- C6: whenever a stored fingerprint exists (non-blank after trimming) and
differs from the current lockfile hash, with `autoInstall` false, the check
operation emits the fixed-format warning block — which contains the line
`Lock file <name> has changed!` and a line including the install command —
for every value of `silent` and `isHook` (the warning goes through the
unconditional channel), and leaves the stored fingerprint unchanged. -/
theorem checkLockfile_changed_emits_warning (isHook : Bool) (cwd : String)
    (env : GuardianEnv) (info : LockfileInfo) (s : String)
    (hfind : findLockfile cwd env.files env.hashOf = some info)
    (hstored : env.storedFile = some s) (hne0 : jsTrim s ≠ "")
    (hdiff : jsTrim s ≠ info.hash) (hauto : env.config.autoInstall = false) :
    createWarningBox info.packageManager.lockFile info.packageManager.installCommand
        ∈ (checkLockfile isHook cwd env).1 ∧
    (checkLockfile isHook cwd env).2 = env.storedFile ∧
    ("Lock file " ++ info.packageManager.lockFile ++ " has changed!") ∈
      splitNl (createWarningBox info.packageManager.lockFile
        info.packageManager.installCommand) ∧
    ∃ line ∈ splitNl (createWarningBox info.packageManager.lockFile
        info.packageManager.installCommand),
      jsIncludes line info.packageManager.installCommand = true := by
  have hpm := findLockfile_pm_mem hfind
  have hnl : '\n' ∉ info.packageManager.lockFile.data ∧
      '\n' ∉ info.packageManager.installCommand.data := by
    simp only [PACKAGE_MANAGERS, List.mem_cons, List.not_mem_nil, or_false] at hpm
    rcases hpm with h | h | h <;> rw [h] <;> exact ⟨by decide, by decide⟩
  have hbox := splitNl_createWarningBox info.packageManager.lockFile
    info.packageManager.installCommand hnl.1 hnl.2
  have hmain : (checkLockfile isHook cwd env).1 =
      (if env.config.checkNodeModules && !env.nodeModulesIgnored then
        ["⚠️  Warning: node_modules is not in .gitignore"] else []) ++
      [createWarningBox info.packageManager.lockFile
        info.packageManager.installCommand] ∧
      (checkLockfile isHook cwd env).2 = env.storedFile := by
    rw [checkLockfile, hfind]
    simp only [getStoredHash, hstored, Option.map_some]
    rw [if_neg (by simp [hne0])]
    rw [if_neg (by simp [hdiff])]
    rw [if_neg (by simp [hauto])]
    exact ⟨rfl, rfl⟩
  refine ⟨?_, hmain.2, ?_, ?_⟩
  · rw [hmain.1]
    exact List.mem_append_right _ (List.mem_singleton.mpr rfl)
  · rw [hbox]
    simp
  · refine ⟨"  " ++ info.packageManager.installCommand, ?_, ?_⟩
    · rw [hbox]
      simp
    · exact jsIncludes_append_self "  " info.packageManager.installCommand

/-- C6 witness: a pnpm project with a changed fingerprint under
`silent = true` still gets the full warning box and no fingerprint write. -/
theorem checkLockfile_changed_emits_warning_witness :
    createWarningBox "pnpm-lock.yaml" "pnpm install" ∈
      (checkLockfile true "/p"
        ⟨⟨false, true, false⟩, fun f => f == "pnpm-lock.yaml", fun _ => "h1",
          some "h0", false, true⟩).1 ∧
    (checkLockfile true "/p"
        ⟨⟨false, true, false⟩, fun f => f == "pnpm-lock.yaml", fun _ => "h1",
          some "h0", false, true⟩).2 = some "h0" ∧
    ("Lock file " ++ "pnpm-lock.yaml" ++ " has changed!") ∈
      splitNl (createWarningBox "pnpm-lock.yaml" "pnpm install") ∧
    ∃ line ∈ splitNl (createWarningBox "pnpm-lock.yaml" "pnpm install"),
      jsIncludes line "pnpm install" = true := by
  have h := checkLockfile_changed_emits_warning true "/p"
    ⟨⟨false, true, false⟩, fun f => f == "pnpm-lock.yaml", fun _ => "h1",
      some "h0", false, true⟩
    ⟨"/p" ++ "/" ++ "pnpm-lock.yaml", ⟨"pnpm", "pnpm-lock.yaml", "pnpm install"⟩, "h1"⟩
    "h0" rfl rfl (by decide) (by decide) rfl
  exact h

/-! ## Shape lemmas for `createHookContent` -/

theorem createHookContent_blank {content : String}
    (h : ¬(content ≠ "" ∧ jsTrim content ≠ "")) (d : Bool) :
    createHookContent (some content) d = createHookContent none d := by
  simp only [createHookContent]
  rw [if_neg h]

theorem createHookContent_of_marker {content : String} (h1 : content ≠ "")
    (h2 : jsTrim content ≠ "")
    (h3 : (splitNl content).any (fun line => jsIncludes line HOOK_COMMAND) = true)
    (d : Bool) : createHookContent (some content) d = content := by
  simp only [createHookContent]
  rw [if_pos ⟨h1, h2⟩, if_pos h3]

theorem createHookContent_husky_lines {content : String} (hb : jsTrim content ≠ "")
    (hm : ∀ line ∈ splitNl content, jsIncludes line HOOK_COMMAND = false) :
    splitNl (createHookContent (some content) true) =
      splitNl content ++ ["", GUARDIAN_COMMENT, HOOK_COMMAND] := by
  have hne : content ≠ "" := fun h => hb (by rw [h]; rfl)
  have hany : (splitNl content).any (fun line => jsIncludes line HOOK_COMMAND) = false :=
    List.any_eq_false.mpr (by intro x hx; simp [hm x hx])
  simp only [createHookContent]
  rw [if_pos ⟨hne, hb⟩, if_neg (by simp [hany]), if_pos trivial]
  have heq : content ++ "\n\n# Lockfile Guardian\n" ++ HOOK_COMMAND =
      content ++ "\n" ++ "\n# Lockfile Guardian\nnpx lockfile-guardian check --hook" := by
    apply String_eq_of_data
    simp only [String.data_append, List.append_assoc]
    rfl
  rw [heq, splitNl_append_nl]
  rfl

theorem createHookContent_trad_shebang {content : String} {i : Nat}
    (hb : jsTrim content ≠ "")
    (hm : ∀ line ∈ splitNl content, jsIncludes line HOOK_COMMAND = false)
    (hidx : (splitNl content).findIdx? (fun line => jsStartsWith line "#!") = some i) :
    splitNl (createHookContent (some content) false) =
      (splitNl content).take (i + 1) ++ ["", GUARDIAN_COMMENT, HOOK_COMMAND] ++
        (splitNl content).drop (i + 1) := by
  have hne : content ≠ "" := fun h => hb (by rw [h]; rfl)
  have hany : (splitNl content).any (fun line => jsIncludes line HOOK_COMMAND) = false :=
    List.any_eq_false.mpr (by intro x hx; simp [hm x hx])
  simp only [createHookContent]
  rw [if_pos ⟨hne, hb⟩, if_neg (by simp [hany]), if_neg (by simp), hidx]
  apply splitNl_joinLines
  · simp
  · intro l hl
    rcases List.mem_append.mp hl with h1 | h1
    · rcases List.mem_append.mp h1 with h2 | h2
      · exact noNl_of_mem_splitNl (List.take_subset _ _ h2)
      · simp only [List.mem_cons, List.not_mem_nil, or_false] at h2
        rcases h2 with rfl | rfl | rfl <;> decide
    · exact noNl_of_mem_splitNl (List.drop_subset _ _ h1)

theorem createHookContent_trad_noshebang {content : String}
    (hb : jsTrim content ≠ "")
    (hm : ∀ line ∈ splitNl content, jsIncludes line HOOK_COMMAND = false)
    (hidx : (splitNl content).findIdx? (fun line => jsStartsWith line "#!") = none) :
    splitNl (createHookContent (some content) false) =
      [HOOK_SHEBANG, "", GUARDIAN_COMMENT, HOOK_COMMAND] ++ splitNl content := by
  have hne : content ≠ "" := fun h => hb (by rw [h]; rfl)
  have hany : (splitNl content).any (fun line => jsIncludes line HOOK_COMMAND) = false :=
    List.any_eq_false.mpr (by intro x hx; simp [hm x hx])
  simp only [createHookContent]
  rw [if_pos ⟨hne, hb⟩, if_neg (by simp [hany]), if_neg (by simp), hidx]
  apply splitNl_joinLines
  · simp
  · intro l hl
    rcases List.mem_append.mp hl with h1 | h1
    · simp only [List.mem_cons, List.not_mem_nil, or_false] at h1
      rcases h1 with rfl | rfl | rfl | rfl <;> decide
    · exact noNl_of_mem_splitNl h1

theorem insert_has_marker_line (X : Option String) (d : Bool) :
    ∃ line ∈ splitNl (createHookContent X d),
      jsIncludes line HOOK_COMMAND = true := by
  have hnone : ∀ d' : Bool, ∃ line ∈ splitNl (createHookContent none d'),
      jsIncludes line HOOK_COMMAND = true := by
    intro d'
    cases d' <;> exact ⟨HOOK_COMMAND, by decide, by decide⟩
  cases X with
  | none => exact hnone d
  | some content =>
    by_cases hcond : content ≠ "" ∧ jsTrim content ≠ ""
    · by_cases hany : (splitNl content).any (fun line => jsIncludes line HOOK_COMMAND) = true
      · rw [createHookContent_of_marker hcond.1 hcond.2 hany]
        rcases List.any_eq_true.mp hany with ⟨line, hl, hinc⟩
        exact ⟨line, hl, hinc⟩
      · have hm : ∀ line ∈ splitNl content, jsIncludes line HOOK_COMMAND = false := by
          intro line hl
          by_contra hq
          exact hany (List.any_eq_true.mpr ⟨line, hl, by simpa using hq⟩)
        cases d with
        | true =>
          rw [createHookContent_husky_lines hcond.2 hm]
          exact ⟨HOOK_COMMAND, by simp, by decide⟩
        | false =>
          cases hidx : (splitNl content).findIdx? (fun line => jsStartsWith line "#!") with
          | some i =>
            rw [createHookContent_trad_shebang hcond.2 hm hidx]
            exact ⟨HOOK_COMMAND, by simp, by decide⟩
          | none =>
            rw [createHookContent_trad_noshebang hcond.2 hm hidx]
            exact ⟨HOOK_COMMAND, by simp, by decide⟩
    · rw [createHookContent_blank hcond]
      exact hnone d

/-- A second insertion always returns its input unchanged: any output of
`createHookContent` contains a line including the hook command, is non-empty
and does not trim to blank, so the already-present check fires. -/
theorem createHookContent_fixed_point (X : Option String) (d : Bool) :
    createHookContent (some (createHookContent X d)) d = createHookContent X d := by
  obtain ⟨line, hl, hinc⟩ := insert_has_marker_line X d
  have hn : 'n' ∈ line.data :=
    mem_of_isSubL hinc (by decide)
  have hmem : 'n' ∈ (createHookContent X d).data := mem_data_of_mem_splitNl hl hn
  exact createHookContent_of_marker (ne_empty_of_mem hmem)
    (jsTrim_ne_empty_of_mem hmem (by decide))
    (List.any_eq_true.mpr ⟨line, hl, hinc⟩) d

/-! ## C1 — idempotent insertion -/

/-- C1 counterexample: for existing content that already holds two marker
lines, insertion (any dialect) returns it unchanged, so inserting twice
leaves content containing the marker twice, not "exactly once" as the
universally-quantified claim states. -/
theorem insert_twice_cx :
    countMarkerLines
      (createHookContent
        (some (createHookContent
          (some (HOOK_COMMAND ++ "\n" ++ HOOK_COMMAND)) true)) true) = 2 ∧
    countMarkerLines
      (createHookContent
        (some (createHookContent
          (some (HOOK_COMMAND ++ "\n" ++ HOOK_COMMAND)) false)) false) = 2 := by
  constructor
  · decide
  · decide

/-- C1 (amended): for every existing hook-script content (including absent)
in which at most one line includes the marker — in particular any content not
yet containing it, and any content `Insert` itself produced — and each
dialect, the result of insertion contains the marker on exactly one line, and
a second insertion returns that result unchanged. -/
theorem insert_marker_once_and_idempotent (X : Option String) (d : Bool)
    (h : (linesOpt X).countP (fun line => jsIncludes line HOOK_COMMAND) ≤ 1) :
    countMarkerLines (createHookContent X d) = 1 ∧
    createHookContent (some (createHookContent X d)) d = createHookContent X d := by
  refine ⟨?_, createHookContent_fixed_point X d⟩
  have hnone : ∀ d' : Bool, countMarkerLines (createHookContent none d') = 1 := by
    intro d'; cases d' <;> decide
  cases X with
  | none => exact hnone d
  | some content =>
    simp only [linesOpt] at h
    by_cases hcond : content ≠ "" ∧ jsTrim content ≠ ""
    · by_cases hany : (splitNl content).any (fun line => jsIncludes line HOOK_COMMAND) = true
      · rw [createHookContent_of_marker hcond.1 hcond.2 hany]
        rcases List.any_eq_true.mp hany with ⟨line, hl, hinc⟩
        have hpos : 0 < (splitNl content).countP (fun line => jsIncludes line HOOK_COMMAND) :=
          List.countP_pos_iff.mpr ⟨line, hl, hinc⟩
        rw [countMarkerLines]
        omega
      · have hm : ∀ line ∈ splitNl content, jsIncludes line HOOK_COMMAND = false := by
          intro line hl
          by_contra hq
          exact hany (List.any_eq_true.mpr ⟨line, hl, by simpa using hq⟩)
        have hcount0 : (splitNl content).countP
            (fun line => jsIncludes line HOOK_COMMAND) = 0 :=
          List.countP_eq_zero.mpr (by intro a ha; simp [hm a ha])
        have htake : ∀ n, ((splitNl content).take n).countP
            (fun line => jsIncludes line HOOK_COMMAND) = 0 := by
          intro n
          exact List.countP_eq_zero.mpr
            (by intro a ha; simp [hm a (List.take_subset _ _ ha)])
        have hdrop : ∀ n, ((splitNl content).drop n).countP
            (fun line => jsIncludes line HOOK_COMMAND) = 0 := by
          intro n
          exact List.countP_eq_zero.mpr
            (by intro a ha; simp [hm a (List.drop_subset _ _ ha)])
        cases d with
        | true =>
          rw [countMarkerLines, createHookContent_husky_lines hcond.2 hm,
            List.countP_append, hcount0]
          decide
        | false =>
          cases hidx : (splitNl content).findIdx? (fun line => jsStartsWith line "#!") with
          | some i =>
            rw [countMarkerLines, createHookContent_trad_shebang hcond.2 hm hidx,
              List.countP_append, List.countP_append, htake, hdrop]
            decide
          | none =>
            rw [countMarkerLines, createHookContent_trad_noshebang hcond.2 hm hidx,
              List.countP_append, hcount0]
            decide
    · rw [createHookContent_blank hcond]
      exact hnone d

/-- C1 witness: inserting into `echo hi` (Husky dialect) yields exactly one
marker line, and a second insertion is the identity on that output. -/
theorem insert_marker_once_and_idempotent_witness :
    countMarkerLines (createHookContent (some "echo hi") true) = 1 ∧
    createHookContent (some (createHookContent (some "echo hi") true)) true =
      createHookContent (some "echo hi") true :=
  insert_marker_once_and_idempotent (some "echo hi") true (by decide)

/-! ## C4 — insertion preserves original lines -/

/-- C4 counterexample: whitespace-only existing content (which does not
contain the marker) is treated as absent and replaced by freshly synthesized
content, so its original line is not preserved. -/
theorem insert_blank_loses_line_cx :
    " " ∈ splitNl " " ∧ jsIncludes " " HOOK_COMMAND = false ∧
    " " ∉ splitNl (createHookContent (some " ") false) ∧
    " " ∉ splitNl (createHookContent (some " ") true) := by
  decide

/-- C4 (amended): for every existing hook content that is not
whitespace-only and does not contain the marker, and each dialect, every
original line is still present, unmodified and in its original relative
order, in the content produced by insertion (for the hook-manager dialect
the new block is appended at the end; for the traditional dialect it is
spliced in after the shebang, or the synthesized header is prepended). -/
theorem insert_preserves_original_lines (content : String) (d : Bool)
    (hb : jsTrim content ≠ "")
    (hm : ∀ line ∈ splitNl content, jsIncludes line HOOK_COMMAND = false) :
    List.Sublist (splitNl content) (splitNl (createHookContent (some content) d)) := by
  cases d with
  | true =>
    rw [createHookContent_husky_lines hb hm]
    exact List.sublist_append_left _ _
  | false =>
    cases hidx : (splitNl content).findIdx? (fun line => jsStartsWith line "#!") with
    | some i =>
      rw [createHookContent_trad_shebang hb hm hidx]
      have h1 : List.Sublist ((splitNl content).drop (i + 1))
          (["", GUARDIAN_COMMENT, HOOK_COMMAND] ++ (splitNl content).drop (i + 1)) :=
        List.sublist_append_right _ _
      have h2 := h1.append_left ((splitNl content).take (i + 1))
      rw [← List.append_assoc] at h2
      nth_rewrite 1 [← List.take_append_drop (i + 1) (splitNl content)]
      exact h2
    | none =>
      rw [createHookContent_trad_noshebang hb hm hidx]
      exact List.sublist_append_right _ _

/-- C4 witness: the lines of `echo hi` survive traditional-dialect
insertion in order. -/
theorem insert_preserves_original_lines_witness :
    List.Sublist (splitNl "echo hi")
      (splitNl (createHookContent (some "echo hi") false)) :=
  insert_preserves_original_lines "echo hi" false (by decide) (by decide)

/-! ## C3 — what removal deletes -/

/-- C3 counterexample: a foreign line that merely *contains* the marker text
as a substring (here inside an `echo` argument) is not equal to the marker
line or the comment line, yet removal deletes it — the whole file is even
deleted, since only the shebang remains. -/
theorem remove_substring_cx :
    removeHookContent
      "#!/bin/sh\necho \"npx lockfile-guardian check --hook\"" false = none ∧
    "echo \"npx lockfile-guardian check --hook\"" ≠ HOOK_COMMAND ∧
    "echo \"npx lockfile-guardian check --hook\"" ≠ GUARDIAN_COMMENT ∧
    "echo \"npx lockfile-guardian check --hook\"" ∈
      splitNl "#!/bin/sh\necho \"npx lockfile-guardian check --hook\"" := by
  refine ⟨rfl, by decide, by decide, by decide⟩

/-- C3 (amended): removal deletes exactly those lines that *include* the
marker command or the identifying comment as a substring; every other line
survives in its original relative order — unless the surviving remainder is
blank (or, in the traditional dialect, trims to exactly the bare shebang),
in which case deletion of the whole file is signalled. -/
theorem removeHookContent_filters (content : String) (d : Bool) :
    removeHookContent content d =
      some (joinLines ((splitNl content).filter
        (fun line => !jsIncludes line HOOK_COMMAND &&
          !jsIncludes line GUARDIAN_COMMENT))) ∨
    (removeHookContent content d = none ∧
      (jsTrim (joinLines ((splitNl content).filter
          (fun line => !jsIncludes line HOOK_COMMAND &&
            !jsIncludes line GUARDIAN_COMMENT))) = "" ∨
       (d = false ∧
        jsTrim (joinLines ((splitNl content).filter
          (fun line => !jsIncludes line HOOK_COMMAND &&
            !jsIncludes line GUARDIAN_COMMENT))) = HOOK_SHEBANG))) := by
  simp only [removeHookContent]
  cases d with
  | true =>
    rw [if_pos (show (true : Bool) = true from rfl)]
    by_cases h : jsTrim (joinLines ((splitNl content).filter
        (fun line => !jsIncludes line HOOK_COMMAND &&
          !jsIncludes line GUARDIAN_COMMENT))) = ""
    · rw [if_pos h]
      exact Or.inr ⟨rfl, Or.inl h⟩
    · rw [if_neg h]
      exact Or.inl rfl
  | false =>
    rw [if_neg (by simp)]
    by_cases h : jsTrim (joinLines ((splitNl content).filter
        (fun line => !jsIncludes line HOOK_COMMAND &&
          !jsIncludes line GUARDIAN_COMMENT))) = HOOK_SHEBANG ∨
        jsTrim (joinLines ((splitNl content).filter
          (fun line => !jsIncludes line HOOK_COMMAND &&
            !jsIncludes line GUARDIAN_COMMENT))) = ""
    · rw [if_pos h]
      rcases h with hs | he
      · exact Or.inr ⟨rfl, Or.inr ⟨rfl, hs⟩⟩
      · exact Or.inr ⟨rfl, Or.inl he⟩
    · rw [if_neg h]
      exact Or.inl rfl

/-! ## C2 — round trip: remove after insert -/

theorem effectiveLine_of_trim_empty {line : String} (h : jsTrim line = "") :
    effectiveLine line = false := by
  simp [effectiveLine, h]

theorem effectiveLine_of_trim_shebang {line : String}
    (h : jsTrim line = HOOK_SHEBANG) : effectiveLine line = false := by
  rw [effectiveLine, h]
  decide

theorem removeHookContent_cases (content : String) (d : Bool) :
    removeHookContent content d =
      some (joinLines ((splitNl content).filter
        (fun line => !jsIncludes line HOOK_COMMAND &&
          !jsIncludes line GUARDIAN_COMMENT))) ∨
    (removeHookContent content d = none ∧
      (jsTrim (joinLines ((splitNl content).filter
          (fun line => !jsIncludes line HOOK_COMMAND &&
            !jsIncludes line GUARDIAN_COMMENT))) = "" ∨
       jsTrim (joinLines ((splitNl content).filter
          (fun line => !jsIncludes line HOOK_COMMAND &&
            !jsIncludes line GUARDIAN_COMMENT))) = HOOK_SHEBANG)) := by
  simp only [removeHookContent]
  cases d with
  | true =>
    rw [if_pos (show (true : Bool) = true from rfl)]
    by_cases h : jsTrim (joinLines ((splitNl content).filter
        (fun line => !jsIncludes line HOOK_COMMAND &&
          !jsIncludes line GUARDIAN_COMMENT))) = ""
    · rw [if_pos h]
      exact Or.inr ⟨rfl, Or.inl h⟩
    · rw [if_neg h]
      exact Or.inl rfl
  | false =>
    rw [if_neg (by simp)]
    by_cases h : jsTrim (joinLines ((splitNl content).filter
        (fun line => !jsIncludes line HOOK_COMMAND &&
          !jsIncludes line GUARDIAN_COMMENT))) = HOOK_SHEBANG ∨
        jsTrim (joinLines ((splitNl content).filter
          (fun line => !jsIncludes line HOOK_COMMAND &&
            !jsIncludes line GUARDIAN_COMMENT))) = ""
    · rw [if_pos h]
      exact Or.inr ⟨rfl, h.symm⟩
    · rw [if_neg h]
      exact Or.inl rfl

theorem remove_none_eff_nil {fl : List String}
    (h : jsTrim (joinLines fl) = "" ∨ jsTrim (joinLines fl) = HOOK_SHEBANG) :
    ∀ l ∈ fl, effectiveLine l = false := by
  intro l hl
  rcases h with h | h
  · exact effectiveLine_of_trim_empty (jsTrim_empty_lines h l hl)
  · rcases jsTrim_eq_hookShebang_lines h l hl with h1 | h1
    · exact effectiveLine_of_trim_shebang h1
    · exact effectiveLine_of_trim_empty h1

/-- C2 counterexample: content consisting of the single command line
`echo "# Lockfile Guardian"` does not contain the marker, yet
`Remove(Insert(X, hookManager))` deletes the file outright (the echo line is
filtered away because it *contains* the comment text), destroying a
shell-effective line — far beyond blank-line differences. -/
theorem roundTrip_cx :
    removeHookContent
      (createHookContent (some "echo \"# Lockfile Guardian\"") true) true = none ∧
    jsIncludes "echo \"# Lockfile Guardian\"" HOOK_COMMAND = false ∧
    effLines "echo \"# Lockfile Guardian\"" = ["echo \"# Lockfile Guardian\""] := by
  refine ⟨rfl, by decide, by decide⟩

/-- C2 (amended): for every content X (including absent) none of whose lines
includes the marker command or the identifying comment text as a substring,
and each dialect, `Remove(Insert(X, d), d)` is behaviorally equivalent to X:
the sequence of shell-effective lines (non-blank lines that are not
comments) is exactly preserved; only blank lines, the inserted
comment/marker pair, and the synthesized shebang header may differ, and a
result of "delete the file" can occur only when X had no effective line at
all. -/
theorem roundTrip_preserves_effective_lines (X : Option String) (d : Bool)
    (h : ∀ line ∈ linesOpt X, jsIncludes line HOOK_COMMAND = false ∧
      jsIncludes line GUARDIAN_COMMENT = false) :
    effOpt (removeHookContent (createHookContent X d) d) = effOpt X := by
  have hnone : ∀ d' : Bool,
      effOpt (removeHookContent (createHookContent none d') d') = effOpt none := by
    intro d'; cases d' <;> decide
  cases X with
  | none => exact hnone d
  | some content =>
    simp only [linesOpt] at h
    by_cases hblank : jsTrim content = ""
    · have hcond : ¬(content ≠ "" ∧ jsTrim content ≠ "") := fun hc => hc.2 hblank
      rw [createHookContent_blank hcond]
      have hlines0 : ∀ line ∈ splitNl content, jsTrim line = "" := by
        intro line hl
        rw [jsTrim_eq_empty_iff] at hblank ⊢
        intro c hc
        exact hblank c (mem_data_of_mem_splitNl hl hc)
      have hrhs : effOpt (some content) = [] := by
        show (splitNl content).filter effectiveLine = []
        exact List.filter_eq_nil_iff.mpr
          (fun a ha => by simp [effectiveLine_of_trim_empty (hlines0 a ha)])
      rw [hrhs]
      have : effOpt (removeHookContent (createHookContent none d) d) = effOpt none :=
        hnone d
      simpa using this
    · have hm : ∀ line ∈ splitNl content, jsIncludes line HOOK_COMMAND = false :=
        fun line hl => (h line hl).1
      have hp : ∀ line ∈ splitNl content,
          (!jsIncludes line HOOK_COMMAND && !jsIncludes line GUARDIAN_COMMENT) = true := by
        intro line hl
        simp [(h line hl).1, (h line hl).2]
      have hfilterL : (splitNl content).filter
          (fun line => !jsIncludes line HOOK_COMMAND &&
            !jsIncludes line GUARDIAN_COMMENT) = splitNl content :=
        List.filter_eq_self.mpr hp
      have hnoNlL : ∀ l ∈ splitNl content, '\n' ∉ l.data :=
        fun l hl => noNl_of_mem_splitNl hl
      cases d with
      | true =>
        have hlines := createHookContent_husky_lines hblank hm
        have hfl : (splitNl (createHookContent (some content) true)).filter
            (fun line => !jsIncludes line HOOK_COMMAND &&
              !jsIncludes line GUARDIAN_COMMENT) = splitNl content ++ [""] := by
          rw [hlines, List.filter_append, hfilterL]
          congr 1
        rcases removeHookContent_cases (createHookContent (some content) true) true with
          hsome | ⟨hzero, hcond2⟩
        · rw [hfl] at hsome
          rw [hsome]
          show effLines (joinLines (splitNl content ++ [""])) =
            (splitNl content).filter effectiveLine
          rw [effLines, splitNl_joinLines (by simp)
            (by
              intro l hl
              rcases List.mem_append.mp hl with h1 | h1
              · exact hnoNlL l h1
              · simp only [List.mem_singleton] at h1
                subst h1; decide)]
          rw [List.filter_append]
          rw [show ([""] : List String).filter effectiveLine = [] from rfl]
          rw [List.append_nil]
        · rw [hfl] at hcond2
          rw [hzero]
          have hall := remove_none_eff_nil hcond2
          show [] = (splitNl content).filter effectiveLine
          symm
          exact List.filter_eq_nil_iff.mpr
            (fun a ha => by simp [hall a (List.mem_append_left _ ha)])
      | false =>
        cases hidx : (splitNl content).findIdx? (fun line => jsStartsWith line "#!") with
        | some i =>
          have hlines := createHookContent_trad_shebang hblank hm hidx
          have hfilterT : ((splitNl content).take (i + 1)).filter
              (fun line => !jsIncludes line HOOK_COMMAND &&
                !jsIncludes line GUARDIAN_COMMENT) = (splitNl content).take (i + 1) :=
            List.filter_eq_self.mpr (fun a ha => hp a (List.take_subset _ _ ha))
          have hfilterD : ((splitNl content).drop (i + 1)).filter
              (fun line => !jsIncludes line HOOK_COMMAND &&
                !jsIncludes line GUARDIAN_COMMENT) = (splitNl content).drop (i + 1) :=
            List.filter_eq_self.mpr (fun a ha => hp a (List.drop_subset _ _ ha))
          have hfl : (splitNl (createHookContent (some content) false)).filter
              (fun line => !jsIncludes line HOOK_COMMAND &&
                !jsIncludes line GUARDIAN_COMMENT) =
              (splitNl content).take (i + 1) ++ [""] ++ (splitNl content).drop (i + 1) := by
            rw [hlines, List.filter_append, List.filter_append, hfilterT, hfilterD]
            congr 2
          have hnoNlF : ∀ l ∈ (splitNl content).take (i + 1) ++ [""] ++
              (splitNl content).drop (i + 1), '\n' ∉ l.data := by
            intro l hl
            rcases List.mem_append.mp hl with h1 | h1
            · rcases List.mem_append.mp h1 with h2 | h2
              · exact hnoNlL l (List.take_subset _ _ h2)
              · simp only [List.mem_singleton] at h2
                subst h2; decide
            · exact hnoNlL l (List.drop_subset _ _ h1)
          rcases removeHookContent_cases (createHookContent (some content) false) false with
            hsome | ⟨hzero, hcond2⟩
          · rw [hfl] at hsome
            rw [hsome]
            show effLines (joinLines ((splitNl content).take (i + 1) ++ [""] ++
              (splitNl content).drop (i + 1))) = (splitNl content).filter effectiveLine
            rw [effLines, splitNl_joinLines (by simp) hnoNlF]
            rw [List.filter_append, List.filter_append]
            rw [show ([""] : List String).filter effectiveLine = [] from rfl]
            rw [List.append_nil, ← List.filter_append, List.take_append_drop]
          · rw [hfl] at hcond2
            rw [hzero]
            have hall := remove_none_eff_nil hcond2
            show [] = (splitNl content).filter effectiveLine
            symm
            apply List.filter_eq_nil_iff.mpr
            intro a ha
            rw [← List.take_append_drop (i + 1) (splitNl content)] at ha
            rcases List.mem_append.mp ha with h1 | h1
            · simp [hall a (List.mem_append_left _ (List.mem_append_left _ h1))]
            · simp [hall a (List.mem_append_right _ h1)]
        | none =>
          have hlines := createHookContent_trad_noshebang hblank hm hidx
          have hfl : (splitNl (createHookContent (some content) false)).filter
              (fun line => !jsIncludes line HOOK_COMMAND &&
                !jsIncludes line GUARDIAN_COMMENT) =
              [HOOK_SHEBANG, ""] ++ splitNl content := by
            rw [hlines, List.filter_append, hfilterL]
            congr 1
          have hnoNlF : ∀ l ∈ [HOOK_SHEBANG, ""] ++ splitNl content, '\n' ∉ l.data := by
            intro l hl
            rcases List.mem_append.mp hl with h1 | h1
            · simp only [List.mem_cons, List.not_mem_nil, or_false] at h1
              rcases h1 with rfl | rfl <;> decide
            · exact hnoNlL l h1
          rcases removeHookContent_cases (createHookContent (some content) false) false with
            hsome | ⟨hzero, hcond2⟩
          · rw [hfl] at hsome
            rw [hsome]
            show effLines (joinLines ([HOOK_SHEBANG, ""] ++ splitNl content)) =
              (splitNl content).filter effectiveLine
            rw [effLines, splitNl_joinLines (by simp) hnoNlF]
            rw [List.filter_append]
            rw [show ([HOOK_SHEBANG, ""] : List String).filter effectiveLine = [] from rfl]
            rw [List.nil_append]
          · rw [hfl] at hcond2
            rw [hzero]
            have hall := remove_none_eff_nil hcond2
            show [] = (splitNl content).filter effectiveLine
            symm
            exact List.filter_eq_nil_iff.mpr
              (fun a ha => by simp [hall a (List.mem_append_right _ ha)])

/-- C2 witness: round-tripping `echo hi` through the traditional dialect
preserves its effective lines. -/
theorem roundTrip_preserves_effective_lines_witness :
    effOpt (removeHookContent (createHookContent (some "echo hi") false) false) =
      effOpt (some "echo hi") :=
  roundTrip_preserves_effective_lines (some "echo hi") false (by decide)

end LockfileGuardian
